import Mathlib

set_option autoImplicit false

/-!
Verification development for the billiard simulation in
`Computer_Graphics_Billiard/PoolSimulation.js`.

The physics core of the program is shallowly embedded below.  JavaScript
numbers are modelled by exact rationals `ℚ`; the wall-clock millisecond
counter by `ℤ`.

The embedding computes with a small layer of rational operations
(`qadd`, `qmul`, `qsub`, `qdiv`, `qneg`, `qabs`, `qfloor`) that are
definitionally built from `mkRat`/`Rat.num`/`Rat.den`, so that closed
runs of the model evaluate by `decide`; each of these is proved equal to
the corresponding standard operation (`qadd_eq : qadd a b = a + b`, and
so on), and every symbolic theorem below is proved after rewriting with
those equations — the layer is a computational encoding, not a semantic
change.

`Math.sqrt` is irrational in general; the embedding uses `ratSqrt`, which
is exact on squares of rationals (`ratSqrt_sq`) — theorems whose truth
depends on exactness of a square root carry that exactness as an explicit
hypothesis, and all concrete inputs used in witnesses and counterexamples
are chosen so that every square root the program takes is the square root
of a perfect rational square (where the model agrees exactly with the
JavaScript computation).  `cos`/`sin` are transcendental, so the frame
function is parametrized by trigonometric functions `cosF sinF : ℚ → ℚ`;
positions, velocities, the clock and the ghost fields are independent of
this choice (only orientation matrices depend on it), and theorems about
orientation carry the defining facts `cosF 0 = 1`, `sinF 0 = 0` as
hypotheses.

`THREE.Vector3` / `THREE.Matrix4` are external library primitives, not
part of the repository source; their operations (`add`, `subVectors`,
`dot`, `cross`, `multiplyScalar`, `divideScalar`, `length`, `distanceTo`,
`normalize`, `makeRotationAxis`, matrix product) are modelled from the
library's documented semantics.  In particular `normalize` divides by
`length || 1`, so the zero vector normalizes to the zero vector.

The once-per-frame physics of `render` (PoolSimulation.js lines 222-292),
the collision routine `collisionVel` (lines 296-332) and the S-key speed
boost (lines 340-363) are embedded as pure state transformers.  Two ghost
fields are added to the state for specification purposes only:
`resolveLog` records, per frame, every ordered pair `(ID, i)` for which
the elastic-collision update fired, and `fricCount` counts executions of
the once-per-second friction pass.  Neither feeds back into the simulated
kinematics.
-/

/-- Rational addition, computed through `mkRat` (kernel-reducible);
`qadd_eq` proves it is `+`. -/
def qadd (a b : ℚ) : ℚ :=
  mkRat (a.num * (b.den : ℤ) + b.num * (a.den : ℤ)) (a.den * b.den)

/-- Rational multiplication through `mkRat`; `qmul_eq` proves it is `*`. -/
def qmul (a b : ℚ) : ℚ := mkRat (a.num * b.num) (a.den * b.den)

/-- Rational negation through `mkRat`; `qneg_eq` proves it is `Neg.neg`. -/
def qneg (a : ℚ) : ℚ := mkRat (-a.num) a.den

/-- Rational subtraction; `qsub_eq` proves it is `-`. -/
def qsub (a b : ℚ) : ℚ := qadd a (qneg b)

/-- Rational division through `mkRat`; `qdiv_eq` proves it is `/`
(with the Lean convention `a / 0 = 0`; the embedded code never divides by
zero on an executed path, see `Vec3.normalize`). -/
def qdiv (a b : ℚ) : ℚ :=
  if 0 ≤ b.num then mkRat (a.num * (b.den : ℤ)) (a.den * b.num.toNat)
  else mkRat (-(a.num * (b.den : ℤ))) (a.den * (-b.num).toNat)

/-- Rational absolute value; `qabs_eq` proves it is `|·|`. -/
def qabs (a : ℚ) : ℚ := if a < 0 then qneg a else a

/-- Rational floor computed by Euclidean division of the reduced numerator
by the denominator; `qfloor_eq` proves it is `⌊·⌋`. -/
def qfloor (a : ℚ) : ℤ := Int.ediv a.num (a.den : ℤ)

/-- Fuel-driven integer square-root search: starting from `lo` with
`lo² ≤ n`, increase while the next square still fits. -/
def sqrtIter : ℕ → ℕ → ℕ → ℕ
  | 0, _, lo => lo
  | fuel + 1, n, lo =>
    if (lo + 1) * (lo + 1) ≤ n then sqrtIter fuel n (lo + 1) else lo

/-- Integer square root (exact on perfect squares, `natSqrtF_sq`). -/
def natSqrtF (n : ℕ) : ℕ := sqrtIter n n 0

/-- `Math.sqrt` on the rationals the program produces: exact on squares of
rationals (`ratSqrt_sq`); on other inputs some rational (the embedding
never depends on its value there, and no theorem below evaluates it on a
non-square). -/
def ratSqrt (q : ℚ) : ℚ := mkRat (natSqrtF q.num.toNat) (natSqrtF q.den)

/-- 3D vector with exact rational components, modelling `THREE.Vector3`. -/
@[ext] structure Vec3 where
  x : ℚ
  y : ℚ
  z : ℚ
deriving DecidableEq, Repr

def Vec3.zero : Vec3 := ⟨0, 0, 0⟩

/-- `THREE.Vector3.add` (componentwise). -/
def Vec3.add (a b : Vec3) : Vec3 :=
  ⟨qadd a.x b.x, qadd a.y b.y, qadd a.z b.z⟩

/-- `THREE.Vector3.subVectors` (componentwise difference). -/
def Vec3.sub (a b : Vec3) : Vec3 :=
  ⟨qsub a.x b.x, qsub a.y b.y, qsub a.z b.z⟩

/-- `THREE.Vector3.multiplyScalar`. -/
def Vec3.multiplyScalar (a : Vec3) (s : ℚ) : Vec3 :=
  ⟨qmul a.x s, qmul a.y s, qmul a.z s⟩

/-- `THREE.Vector3.divideScalar` (multiplication by the reciprocal). -/
def Vec3.divideScalar (a : Vec3) (s : ℚ) : Vec3 :=
  a.multiplyScalar (qdiv 1 s)

/-- `THREE.Vector3.dot`. -/
def Vec3.dot (a b : Vec3) : ℚ :=
  qadd (qadd (qmul a.x b.x) (qmul a.y b.y)) (qmul a.z b.z)

/-- `THREE.Vector3.cross`. -/
def Vec3.cross (a b : Vec3) : Vec3 :=
  ⟨qsub (qmul a.y b.z) (qmul a.z b.y),
   qsub (qmul a.z b.x) (qmul a.x b.z),
   qsub (qmul a.x b.y) (qmul a.y b.x)⟩

/-- `THREE.Vector3.lengthSq`. -/
def Vec3.normSq (a : Vec3) : ℚ :=
  qadd (qadd (qmul a.x a.x) (qmul a.y a.y)) (qmul a.z a.z)

/-- `THREE.Vector3.length` (`Math.sqrt` of the squared norm). -/
def Vec3.length (a : Vec3) : ℚ := ratSqrt a.normSq

/-- `THREE.Vector3.distanceTo`. -/
def Vec3.distanceTo (a b : Vec3) : ℚ := (a.sub b).length

/-- `THREE.Vector3.normalize`: `divideScalar(length || 1)`, so a vector of
zero length is divided by 1 (left unchanged) rather than by zero. -/
def Vec3.normalize (a : Vec3) : Vec3 :=
  a.divideScalar (if a.length = 0 then 1 else a.length)

/-- 3×3 matrix: the rotational block of a ball's `THREE.Matrix4` (the
translation column is tracked by the ball's position, which the code keeps
in sync with the matrix via `setPosition`/`position.copy`, and
`setPosition` does not touch the rotational block). -/
@[ext] structure Mat3 where
  a11 : ℚ
  a12 : ℚ
  a13 : ℚ
  a21 : ℚ
  a22 : ℚ
  a23 : ℚ
  a31 : ℚ
  a32 : ℚ
  a33 : ℚ
deriving DecidableEq, Repr

def Mat3.identity : Mat3 := ⟨1, 0, 0, 0, 1, 0, 0, 0, 1⟩

/-- Rotational block of `THREE.Matrix4.multiply` (matrix product). -/
def Mat3.mul (m n : Mat3) : Mat3 :=
  ⟨qadd (qadd (qmul m.a11 n.a11) (qmul m.a12 n.a21)) (qmul m.a13 n.a31),
   qadd (qadd (qmul m.a11 n.a12) (qmul m.a12 n.a22)) (qmul m.a13 n.a32),
   qadd (qadd (qmul m.a11 n.a13) (qmul m.a12 n.a23)) (qmul m.a13 n.a33),
   qadd (qadd (qmul m.a21 n.a11) (qmul m.a22 n.a21)) (qmul m.a23 n.a31),
   qadd (qadd (qmul m.a21 n.a12) (qmul m.a22 n.a22)) (qmul m.a23 n.a32),
   qadd (qadd (qmul m.a21 n.a13) (qmul m.a22 n.a23)) (qmul m.a23 n.a33),
   qadd (qadd (qmul m.a31 n.a11) (qmul m.a32 n.a21)) (qmul m.a33 n.a31),
   qadd (qadd (qmul m.a31 n.a12) (qmul m.a32 n.a22)) (qmul m.a33 n.a32),
   qadd (qadd (qmul m.a31 n.a13) (qmul m.a32 n.a23)) (qmul m.a33 n.a33)⟩

/-- Rotational block of `THREE.Matrix4.makeRotationAxis(axis, θ)`, with
the trigonometric values `c = cos θ`, `s = sin θ` passed in explicitly. -/
def makeRotationAxis (axis : Vec3) (c s : ℚ) : Mat3 :=
  let t := qsub 1 c
  ⟨qadd (qmul (qmul t axis.x) axis.x) c,
   qsub (qmul (qmul t axis.x) axis.y) (qmul s axis.z),
   qadd (qmul (qmul t axis.x) axis.z) (qmul s axis.y),
   qadd (qmul (qmul t axis.x) axis.y) (qmul s axis.z),
   qadd (qmul (qmul t axis.y) axis.y) c,
   qsub (qmul (qmul t axis.y) axis.z) (qmul s axis.x),
   qsub (qmul (qmul t axis.x) axis.z) (qmul s axis.y),
   qadd (qmul (qmul t axis.y) axis.z) (qmul s axis.x),
   qadd (qmul (qmul t axis.z) axis.z) c⟩

/-- `defaultSettings.tableSize` (PoolSimulation.js line 50). -/
def tableSize : ℚ := 10

/-- `defaultSettings.ballRadius` (line 57), `0.2`. -/
def ballRadius : ℚ := mkRat 1 5

/-- `defaultSettings.massOfSphere` (line 58). -/
def massOfSphere : ℚ := 1

/-- `defaultSettings.tableWidth` (line 53), `0.5`; the resting plane of
every ball's center is `tableWidth - 0.05 = 9/20` (line 202). -/
def tableWidth : ℚ := mkRat 1 2

/-- `rollFric` (line 217), `0.8`: fraction of speed retained at each
cushion collision and at each elapsed second. -/
def rollFric : ℚ := mkRat 4 5

/-- `colliFric` (line 218), `0.7`: the S-key boost scales velocity by
`colliFric + colliFric = 1.4`. -/
def colliFric : ℚ := mkRat 7 10

/-- The threshold `tableSize/2 - ballRadius = 4.8` that the x boundary
check compares ball centers against (lines 256, 260): the legal
half-extent for centers along x. -/
def halfWidth : ℚ := qsub (qdiv tableSize 2) ballRadius

/-- The threshold `tableSize/4 - ballRadius = 2.3` for the y boundary
check (lines 265, 269). -/
def halfHeight : ℚ := qsub (qdiv tableSize 4) ballRadius

/-- The collision-detection threshold `ballRadius * 2` (lines 204, 299). -/
def twoRadius : ℚ := qmul ballRadius 2

/-- The elastic-collision velocity update of `collisionVel`
(lines 300-329), applied to one overlapping pair: unit normal `n` from
ball A to ball B, velocity components `a1`, `a2` along it, the equal-mass
impulse scalar `optimizedP = 2(a1-a2)/(m+m)`, and the symmetric update
`v1' = v1 - scalarN`, `v2' = v2 + scalarN` with
`scalarN = n * (optimizedP * m)`.  Returns (new velocity of A, new
velocity of B). -/
def resolvePairUpd (posA posB vA vB : Vec3) : Vec3 × Vec3 :=
  let n := (posB.sub posA).normalize
  let a1 := vA.dot n
  let a2 := vB.dot n
  let optimizedP := qdiv (qmul 2 (qsub a1 a2)) (qadd massOfSphere massOfSphere)
  let scalarN := n.multiplyScalar (qmul optimizedP massOfSphere)
  (vA.sub scalarN, vB.add scalarN)

/-- One iteration of the inner loop of `collisionVel` (lines 297-331):
skip `i == ID`, test `distanceTo < ballRadius*2` on the (loop-invariant)
positions, and on overlap rewrite both velocities and append the ordered
pair `(ID, i)` to the ghost log. -/
def collisionPass (pos : List Vec3) (ID : ℕ)
    (st : List Vec3 × List (ℕ × ℕ)) (i : ℕ) : List Vec3 × List (ℕ × ℕ) :=
  if i = ID then st
  else if (pos.getD ID Vec3.zero).distanceTo (pos.getD i Vec3.zero) <
      twoRadius then
    let pr := resolvePairUpd (pos.getD ID Vec3.zero) (pos.getD i Vec3.zero)
      (st.1.getD ID Vec3.zero) (st.1.getD i Vec3.zero)
    ((st.1.set ID pr.1).set i pr.2, st.2 ++ [(ID, i)])
  else st

/-- `collisionVel(ball, ID)` (lines 296-332): fold the inner loop over all
ball indices (the JavaScript bound `table.children.length - 8` is the
number of balls); velocities are read from the evolving array exactly as
the JavaScript reads `velocity[ID]`/`velocity[i]` afresh each iteration,
while positions are not written by this routine. -/
def collisionVel (pos vel : List Vec3) (ID : ℕ) :
    List Vec3 × List (ℕ × ℕ) :=
  (List.range pos.length).foldl (collisionPass pos ID) (vel, [])

/-- Rotation-axis computation of the integrator (lines 240-241, 347-348):
`(0,0,1) × velocity`, normalized. -/
def rotationAxisOf (v : Vec3) : Vec3 := ((Vec3.mk 0 0 1).cross v).normalize

/-- The integration block shared by the render loop (lines 239-253) and
the S-key handler (lines 346-361): straight-line translation
`pos + velocity·dt`, and composition of the orientation matrix with
`makeRotationAxis(axis, ω·dt)` where `ω = |velocity| / ballRadius`. -/
def integrate (cosF sinF : ℚ → ℚ) (dt : ℚ) (p v : Vec3) (m : Mat3) :
    Vec3 × Mat3 :=
  let omegaDt := qmul (qdiv v.length ballRadius) dt
  (p.add (v.multiplyScalar dt),
   m.mul (makeRotationAxis (rotationAxisOf v) (cosF omegaDt) (sinF omegaDt)))

/-- Cushion reflection (lines 256-272): the x check (`>`/`else if <`)
forces the sign of `velocity.x` inward and scales the whole vector by
`rollFric`; the independent y check then does the same for `velocity.y`
against `halfHeight`. -/
def boundaryReflect (p v : Vec3) : Vec3 :=
  let v1 :=
    if halfWidth < p.x then
      (Vec3.mk (qneg (qabs v.x)) v.y v.z).multiplyScalar rollFric
    else if p.x < qneg halfWidth then
      (Vec3.mk (qabs v.x) v.y v.z).multiplyScalar rollFric
    else v
  if halfHeight < p.y then
    (Vec3.mk v1.x (qneg (qabs v1.y)) v1.z).multiplyScalar rollFric
  else if p.y < qneg halfHeight then
    (Vec3.mk v1.x (qabs v1.y) v1.z).multiplyScalar rollFric
  else v1

/-- Simulation state: parallel `position`/`velocity`/`matrix` arrays for
the balls (the scene-graph offset `children[i+8]` is elided: index `i`
here is ball `i`), the rounded-millisecond clock `currentTime`, the
stored `previousSec` marker, and the two ghost fields `resolveLog`
(per-frame log of ordered pairs resolved by `collisionVel`) and
`fricCount` (number of executions of the once-per-second friction
pass). -/
structure SimState where
  pos : List Vec3
  vel : List Vec3
  mat : List Mat3
  currentTime : ℤ
  previousSec : ℤ
  resolveLog : List (ℕ × ℕ)
  fricCount : ℕ
deriving DecidableEq, Repr

/-- `Math.round` (ties toward `+∞`): `⌊q + 1/2⌋`. -/
def jsRound (q : ℚ) : ℤ := qfloor (qadd q (mkRat 1 2))

/-- `Math.floor((t / 1000) % 60)` (lines 214, 229) for the nonnegative
millisecond clocks that occur: floor division by 1000, then remainder mod
60 (for `t ≥ 0` JavaScript `%` agrees with `Int.emod`). -/
def secOf (t : ℤ) : ℤ := Int.emod (Int.ediv t 1000) 60

/-- Per-ball body of the render loop (lines 235-286): `collisionVel`,
then integration of position and orientation using the just-updated
velocity, then cushion reflection, then the once-per-second friction
check: when the frame's `currentSecond` differs from `previousSec`, every
ball's velocity is scaled by `rollFric` once and `previousSec` is
updated (the dead recomputation of rotation axes inside that block,
lines 279-283, writes nothing and is elided). -/
def ballBody (cosF sinF : ℚ → ℚ) (dt : ℚ) (curSec : ℤ) (s : SimState)
    (i : ℕ) : SimState :=
  let cv := collisionVel s.pos s.vel i
  let v := cv.1.getD i Vec3.zero
  let pm := integrate cosF sinF dt (s.pos.getD i Vec3.zero) v
    (s.mat.getD i Mat3.identity)
  let s2 : SimState := { s with
    pos := s.pos.set i pm.1
    vel := cv.1.set i (boundaryReflect pm.1 v)
    mat := s.mat.set i pm.2
    resolveLog := s.resolveLog ++ cv.2 }
  if curSec ≠ s2.previousSec then
    { s2 with
      vel := s2.vel.map (fun w => w.multiplyScalar rollFric)
      previousSec := curSec
      fricCount := s2.fricCount + 1 }
  else s2

/-- One frame of `render` (lines 226-287): advance the millisecond clock
by `Math.round(dt·1000)`, compute the frame's `currentSecond`, then run
the per-ball loop.  The `if (dt > 0.15) break` guard at the top of the
loop body is modelled as a per-iteration skip, equivalent because `dt`
does not change during the frame.  The ghost `resolveLog` is reset at the
start of the frame so that it records exactly this frame's resolutions. -/
def frame (cosF sinF : ℚ → ℚ) (s : SimState) (dt : ℚ) : SimState :=
  let t := s.currentTime + jsRound (qmul dt 1000)
  let curSec := secOf t
  let s0 : SimState := { s with currentTime := t, resolveLog := [] }
  (List.range s0.pos.length).foldl
    (fun st i =>
      if mkRat 3 20 < dt then st else ballBody cosF sinF dt curSec st i)
    s0

/-- A sequence of frames with the given per-frame time deltas. -/
def run (cosF sinF : ℚ → ℚ) (s : SimState) (dts : List ℚ) : SimState :=
  dts.foldl (frame cosF sinF) s

/-- Per-ball body of the S-key handler (lines 341-363): scale the ball's
velocity by `colliFric + colliFric`, then rerun the integration sub-step
with a fresh `clock.getDelta()` value (one per ball, supplied by
`dts`). -/
def boostBody (cosF sinF : ℚ → ℚ) (dts : ℕ → ℚ) (s : SimState) (i : ℕ) :
    SimState :=
  let v := (s.vel.getD i Vec3.zero).multiplyScalar (qadd colliFric colliFric)
  let pm := integrate cosF sinF (dts i) (s.pos.getD i Vec3.zero) v
    (s.mat.getD i Mat3.identity)
  { s with
    vel := s.vel.set i v
    pos := s.pos.set i pm.1
    mat := s.mat.set i pm.2 }

/-- The S-key speed boost (lines 340-364). -/
def speedBoost (cosF sinF : ℚ → ℚ) (dts : ℕ → ℚ) (s : SimState) : SimState :=
  (List.range s.pos.length).foldl (boostBody cosF sinF dts) s

/-- The overlap test `collisionVel` applies to the ordered pair
`(ID, i)`: distinct indices with centers closer than `ballRadius*2`. -/
def overlapTest (pos : List Vec3) (ID i : ℕ) : Bool :=
  if i = ID then false
  else decide ((pos.getD ID Vec3.zero).distanceTo (pos.getD i Vec3.zero) <
    twoRadius)

/-- The ghost log one `collisionVel(·, ID)` call produces, as a filter of
the index range (the overlap test reads only positions, which
`collisionVel` never writes, so the log does not depend on the evolving
velocities). -/
def collideLog (pos : List Vec3) (ID : ℕ) : List (ℕ × ℕ) :=
  ((List.range pos.length).filter (overlapTest pos ID)).map (fun i => (ID, i))

/-- The z-plane invariant behind "balls never leave the table surface":
every center sits on the plane `z = zc` and every velocity is
horizontal. -/
def ZInv (s : SimState) (zc : ℚ) : Prop :=
  (∀ p ∈ s.pos, p.z = zc) ∧ ∀ v ∈ s.vel, v.z = 0

/-- Stand-in for `Math.cos` in closed/concrete statements (only the value
`cos 0 = 1` is ever relevant to a theorem below). -/
def cosOne : ℚ → ℚ := fun _ => 1

/-- Stand-in for `Math.sin` in closed/concrete statements. -/
def sinZero : ℚ → ℚ := fun _ => 0

/-- The table's resting plane for ball centers,
`tableWidth - 0.05 = 9/20` (line 202). -/
def restZ : ℚ := mkRat 9 20

/-- A concrete 8-ball state: balls at rest on the x-axis at integer
positions inside the table, clock at a second boundary.  (All pairwise
center distances are integers, so every square root the model takes on
this state is exact.) -/
def stillState8 : SimState where
  pos := [⟨mkRat (-4) 1, 0, restZ⟩, ⟨mkRat (-3) 1, 0, restZ⟩,
          ⟨mkRat (-2) 1, 0, restZ⟩, ⟨mkRat (-1) 1, 0, restZ⟩,
          ⟨0, 0, restZ⟩, ⟨1, 0, restZ⟩, ⟨2, 0, restZ⟩, ⟨3, 0, restZ⟩]
  vel := [Vec3.zero, Vec3.zero, Vec3.zero, Vec3.zero,
          Vec3.zero, Vec3.zero, Vec3.zero, Vec3.zero]
  mat := [Mat3.identity, Mat3.identity, Mat3.identity, Mat3.identity,
          Mat3.identity, Mat3.identity, Mat3.identity, Mat3.identity]
  currentTime := 0
  previousSec := 0
  resolveLog := []
  fricCount := 0

/-- A concrete 8-ball state with balls 0 and 1 overlapping head-on
(centers 0.3 < 0.4 apart, velocities `(1,0,0)` and `(-1,0,0)` along the
line of centers) and the other six balls at rest, far away on the same
axis. -/
def stateC1 : SimState where
  pos := [⟨0, 0, restZ⟩, ⟨mkRat 3 10, 0, restZ⟩,
          ⟨mkRat (-4) 1, 0, restZ⟩, ⟨mkRat (-3) 1, 0, restZ⟩,
          ⟨mkRat (-2) 1, 0, restZ⟩, ⟨2, 0, restZ⟩, ⟨3, 0, restZ⟩,
          ⟨4, 0, restZ⟩]
  vel := [⟨1, 0, 0⟩, ⟨mkRat (-1) 1, 0, 0⟩, Vec3.zero, Vec3.zero,
          Vec3.zero, Vec3.zero, Vec3.zero, Vec3.zero]
  mat := [Mat3.identity, Mat3.identity, Mat3.identity, Mat3.identity,
          Mat3.identity, Mat3.identity, Mat3.identity, Mat3.identity]
  currentTime := 0
  previousSec := 0
  resolveLog := []
  fricCount := 0

/-- A concrete 8-ball state with every ball inside the table bounds:
ball 0 sits at `x = 4.75` (inside the `4.8` threshold) moving toward the
right cushion at speed 3; the others are at rest far away on the same
axis. -/
def stateC2 : SimState where
  pos := [⟨mkRat 19 4, 0, restZ⟩, ⟨mkRat (-4) 1, 0, restZ⟩,
          ⟨mkRat (-3) 1, 0, restZ⟩, ⟨mkRat (-2) 1, 0, restZ⟩,
          ⟨mkRat (-1) 1, 0, restZ⟩, ⟨0, 0, restZ⟩, ⟨1, 0, restZ⟩,
          ⟨2, 0, restZ⟩]
  vel := [⟨3, 0, 0⟩, Vec3.zero, Vec3.zero, Vec3.zero,
          Vec3.zero, Vec3.zero, Vec3.zero, Vec3.zero]
  mat := [Mat3.identity, Mat3.identity, Mat3.identity, Mat3.identity,
          Mat3.identity, Mat3.identity, Mat3.identity, Mat3.identity]
  currentTime := 0
  previousSec := 0
  resolveLog := []
  fricCount := 0

/-- 21 frames of `dt = 2/21 s` each: the simulated time sums to exactly
2.0 seconds, but each frame advances the millisecond clock by
`Math.round(2000/21) = 95 ms`, so the clock only reaches 1995 ms. -/
def dtsC4 : List ℚ := List.replicate 21 (mkRat 2 21)

/-- 20 frames of `dt = 0.1 s`: the millisecond clock advances by exactly
100 ms per frame, reaching 2000 ms. -/
def dtsC4W : List ℚ := List.replicate 20 (mkRat 1 10)

theorem qadd_eq (a b : ℚ) : qadd a b = a + b := by
  have ha : ((a.den : ℚ)) ≠ 0 := by exact_mod_cast a.den_nz
  have hb : ((b.den : ℚ)) ≠ 0 := by exact_mod_cast b.den_nz
  have hA : (a.num : ℚ) = a * a.den := (div_eq_iff ha).mp (Rat.num_div_den a)
  have hB : (b.num : ℚ) = b * b.den := (div_eq_iff hb).mp (Rat.num_div_den b)
  rw [qadd, Rat.mkRat_eq_div]
  push_cast
  rw [div_eq_iff (mul_ne_zero ha hb), hA, hB]
  ring

theorem qmul_eq (a b : ℚ) : qmul a b = a * b := by
  have ha : ((a.den : ℚ)) ≠ 0 := by exact_mod_cast a.den_nz
  have hb : ((b.den : ℚ)) ≠ 0 := by exact_mod_cast b.den_nz
  have hA : (a.num : ℚ) = a * a.den := (div_eq_iff ha).mp (Rat.num_div_den a)
  have hB : (b.num : ℚ) = b * b.den := (div_eq_iff hb).mp (Rat.num_div_den b)
  rw [qmul, Rat.mkRat_eq_div]
  push_cast
  rw [div_eq_iff (mul_ne_zero ha hb), hA, hB]
  ring

theorem qneg_eq (a : ℚ) : qneg a = -a := by
  rw [qneg, Rat.mkRat_eq_div]
  push_cast
  rw [neg_div, Rat.num_div_den]

theorem qsub_eq (a b : ℚ) : qsub a b = a - b := by
  rw [qsub, qadd_eq, qneg_eq, sub_eq_add_neg]

theorem qdiv_eq (a b : ℚ) : qdiv a b = a / b := by
  have ha : ((a.den : ℚ)) ≠ 0 := by exact_mod_cast a.den_nz
  have hb : ((b.den : ℚ)) ≠ 0 := by exact_mod_cast b.den_nz
  have hA : (a.num : ℚ) = a * a.den := (div_eq_iff ha).mp (Rat.num_div_den a)
  have hB : (b.num : ℚ) = b * b.den := (div_eq_iff hb).mp (Rat.num_div_den b)
  rcases lt_trichotomy b.num 0 with hn | hn | hn
  · have hq : (b.num : ℚ) ≠ 0 := by exact_mod_cast hn.ne
    have hbne : b ≠ 0 := fun h => hq (by rw [h]; simp)
    have h0 : (((-b.num).toNat : ℕ) : ℚ) = -(b.num : ℚ) := by
      exact_mod_cast Int.toNat_of_nonneg (by omega : (0:ℤ) ≤ -b.num)
    have h1 : ((a.den * (-b.num).toNat : ℕ) : ℚ) = (a.den : ℚ) * -(b.num : ℚ) := by
      push_cast
      rw [h0]
    rw [qdiv, if_neg (not_le.mpr hn), Rat.mkRat_eq_div, h1]
    push_cast
    rw [div_eq_iff (mul_ne_zero ha (neg_ne_zero.mpr hq)), div_mul_eq_mul_div,
      eq_div_iff hbne, hA, hB]
    ring
  · have hb0 : b = 0 := Rat.num_eq_zero.mp hn
    rw [qdiv, if_pos hn.ge, hb0, Rat.mkRat_eq_div]
    simp [hn]
  · have hq : (b.num : ℚ) ≠ 0 := by exact_mod_cast hn.ne'
    have hbne : b ≠ 0 := fun h => hq (by rw [h]; simp)
    have h0 : ((b.num.toNat : ℕ) : ℚ) = (b.num : ℚ) := by
      exact_mod_cast Int.toNat_of_nonneg hn.le
    have h1 : ((a.den * b.num.toNat : ℕ) : ℚ) = (a.den : ℚ) * (b.num : ℚ) := by
      push_cast
      rw [h0]
    rw [qdiv, if_pos hn.le, Rat.mkRat_eq_div, h1]
    push_cast
    rw [div_eq_iff (mul_ne_zero ha hq), div_mul_eq_mul_div, eq_div_iff hbne,
      hA, hB]
    ring

theorem qabs_eq (a : ℚ) : qabs a = |a| := by
  rw [qabs]
  rcases lt_or_le a 0 with h | h
  · rw [if_pos h, qneg_eq, abs_of_neg h]
  · rw [if_neg (not_lt.mpr h), abs_of_nonneg h]

theorem qfloor_eq (a : ℚ) : qfloor a = ⌊a⌋ := by
  rw [Rat.floor_def, qfloor]
  rfl

theorem sqrtIter_spec (fuel n lo : ℕ) (hlo : lo * lo ≤ n)
    (hup : n < (lo + fuel + 1) * (lo + fuel + 1)) :
    sqrtIter fuel n lo * sqrtIter fuel n lo ≤ n ∧
      n < (sqrtIter fuel n lo + 1) * (sqrtIter fuel n lo + 1) := by
  induction fuel generalizing lo with
  | zero =>
    simp only [sqrtIter]
    refine ⟨hlo, ?_⟩
    have e : lo + 0 + 1 = lo + 1 := by omega
    rw [e] at hup
    exact hup
  | succ m ih =>
    simp only [sqrtIter]
    by_cases h : (lo + 1) * (lo + 1) ≤ n
    · rw [if_pos h]
      refine ih (lo + 1) h ?_
      have e : lo + 1 + m + 1 = lo + (m + 1) + 1 := by omega
      rw [e]
      exact hup
    · rw [if_neg h]
      exact ⟨hlo, by omega⟩

theorem natSqrtF_sq (m : ℕ) : natSqrtF (m * m) = m := by
  obtain ⟨h1, h2⟩ := sqrtIter_spec (m * m) (m * m) 0 (Nat.zero_le _)
    (by nlinarith)
  rw [natSqrtF]
  rcases Nat.lt_trichotomy (sqrtIter (m * m) (m * m) 0) m with h | h | h
  · exfalso
    have hle : sqrtIter (m * m) (m * m) 0 + 1 ≤ m := h
    nlinarith
  · exact h
  · exfalso
    nlinarith

theorem ratSqrt_sq (a : ℚ) (ha : 0 ≤ a) : ratSqrt (a * a) = a := by
  have hnum : (a * a).num = a.num * a.num := Rat.mul_self_num a
  have hden : (a * a).den = a.den * a.den := Rat.mul_self_den a
  have hnn : 0 ≤ a.num := Rat.num_nonneg.mpr ha
  rw [ratSqrt, hnum, hden]
  have h1 : (a.num * a.num).toNat = a.num.toNat * a.num.toNat := by
    rcases Int.eq_ofNat_of_zero_le hnn with ⟨k, hk⟩
    rw [hk, ← Nat.cast_mul, Int.toNat_natCast, Int.toNat_natCast]
  rw [h1, natSqrtF_sq, natSqrtF_sq]
  have h2 : (a.num.toNat : ℤ) = a.num := Int.toNat_of_nonneg hnn
  calc mkRat (a.num.toNat : ℤ) a.den = mkRat a.num a.den := by rw [h2]
    _ = a := Rat.mkRat_self a

theorem Vec3.add_def (a b : Vec3) :
    a.add b = ⟨a.x + b.x, a.y + b.y, a.z + b.z⟩ := by
  simp [Vec3.add, qadd_eq]

theorem Vec3.sub_def (a b : Vec3) :
    a.sub b = ⟨a.x - b.x, a.y - b.y, a.z - b.z⟩ := by
  simp [Vec3.sub, qsub_eq]

theorem Vec3.multiplyScalar_def (a : Vec3) (s : ℚ) :
    a.multiplyScalar s = ⟨a.x * s, a.y * s, a.z * s⟩ := by
  simp [Vec3.multiplyScalar, qmul_eq]

theorem Vec3.dot_def (a b : Vec3) :
    a.dot b = a.x * b.x + a.y * b.y + a.z * b.z := by
  simp [Vec3.dot, qadd_eq, qmul_eq]

theorem Vec3.normSq_def (a : Vec3) :
    a.normSq = a.x * a.x + a.y * a.y + a.z * a.z := by
  simp [Vec3.normSq, qadd_eq, qmul_eq]

theorem Vec3.normSq_nonneg (a : Vec3) : 0 ≤ a.normSq := by
  rw [Vec3.normSq_def]
  nlinarith [mul_self_nonneg a.x, mul_self_nonneg a.y, mul_self_nonneg a.z]

theorem Mat3.mul_identity (m : Mat3) : m.mul Mat3.identity = m := by
  ext <;> simp [Mat3.mul, Mat3.identity, qadd_eq, qmul_eq]

theorem rollFric_val : rollFric = 4 / 5 := by
  rw [rollFric, Rat.mkRat_eq_div]
  norm_num

theorem halfWidth_val : halfWidth = 24 / 5 := by
  rw [halfWidth, qsub_eq, qdiv_eq, tableSize, ballRadius, Rat.mkRat_eq_div]
  norm_num

theorem halfHeight_val : halfHeight = 23 / 10 := by
  rw [halfHeight, qsub_eq, qdiv_eq, tableSize, ballRadius, Rat.mkRat_eq_div]
  norm_num

theorem twoRadius_val : twoRadius = 2 / 5 := by
  rw [twoRadius, qmul_eq, ballRadius, Rat.mkRat_eq_div]
  norm_num

/-- C10: each single pair resolution conserves linear momentum: the same
impulse vector `scalarN` is subtracted from the first velocity and added
to the second, so the vector sum of the two post-update velocities equals
the vector sum of the two pre-update velocities — for every pair of
positions and velocities, whatever the contact normal. -/
theorem c10_momentum_conserved (posA posB vA vB : Vec3) :
    ((resolvePairUpd posA posB vA vB).1).add
        ((resolvePairUpd posA posB vA vB).2) = vA.add vB := by
  ext <;>
    simp [resolvePairUpd, Vec3.add_def, Vec3.sub_def]

/-- C6: two balls with exactly coincident centers: the contact normal is
the zero-length vector, the library normalize guard (`length || 1`)
divides by 1, every projection is 0, and the resolver leaves both
velocities exactly unchanged — no division by zero occurs and no NaN is
produced (the update is a no-op for that pair). -/
theorem c6_coincident_pair_noop (p vA vB : Vec3) :
    resolvePairUpd p p vA vB = (vA, vB) := by
  have hz : p.sub p = Vec3.zero := by
    ext <;> simp [Vec3.sub_def, Vec3.zero]
  have hn : Vec3.normalize Vec3.zero = Vec3.zero := by decide
  rw [resolvePairUpd, hz, hn]
  apply Prod.ext <;>
    ext <;>
    simp [Vec3.dot_def, Vec3.sub_def, Vec3.add_def, Vec3.multiplyScalar_def,
      Vec3.zero]

/-- C8: a cushion reflection never increases speed: each fired axis check
replaces a velocity component by one of the same magnitude (its negated
or restored absolute value) and then scales the whole vector by
`rollFric = 4/5 < 1`, so the squared Euclidean norm — hence the norm —
never increases, whichever combination of the x and y checks fires. -/
theorem c8_reflection_speed_nonincreasing (p v : Vec3) :
    (boundaryReflect p v).normSq ≤ v.normSq := by
  rw [boundaryReflect]
  split_ifs <;>
    simp [Vec3.normSq_def, Vec3.multiplyScalar_def, qneg_eq, qabs_eq,
      rollFric_val, abs_mul, show |(4:ℚ)/5| = 4/5 from by norm_num] <;>
    nlinarith [sq_abs v.x, sq_abs v.y, sq_nonneg v.x, sq_nonneg v.y,
      sq_nonneg v.z, abs_nonneg v.x, abs_nonneg v.y]

theorem foldl_skip {α β : Type} (P : Prop) [Decidable P] (hP : P)
    (f : α → β → α) (l : List β) (st : α) :
    l.foldl (fun a b => if P then a else f a b) st = st := by
  induction l generalizing st with
  | nil => rfl
  | cons hd tl ih => simp [hP, ih]

/-- C5: a frame whose `dt` exceeds the `0.15` ceiling leaves every ball's
position, velocity and orientation matrix exactly unchanged, performs no
collision resolution (empty resolve log), no boundary reflection and no
friction pass (`previousSec` and `fricCount` untouched); only the
millisecond clock advances, exactly as `render` does before the per-ball
loop body breaks out. -/
theorem c5_large_dt_skips_frame (cosF sinF : ℚ → ℚ) (s : SimState) (dt : ℚ)
    (h : mkRat 3 20 < dt) :
    frame cosF sinF s dt =
      { s with currentTime := s.currentTime + jsRound (qmul dt 1000),
               resolveLog := [] } := by
  rw [frame]
  exact foldl_skip _ h _ _ _

/-- Witness for C5 at `dt = 1 > 0.15`: a concrete 8-ball state is left
with all kinematic state unchanged, only the clock advancing by 1000ms. -/
theorem c5_large_dt_skips_frame_witness :
    mkRat 3 20 < (1 : ℚ) ∧
      frame cosOne sinZero stillState8 1 =
        { stillState8 with currentTime := 1000, resolveLog := [] } := by
  refine ⟨by decide, ?_⟩
  rw [c5_large_dt_skips_frame cosOne sinZero stillState8 1 (by decide)]
  decide

/-- C7: when a ball's velocity is the zero vector the rotation-axis
computation yields the (well-defined) zero vector — the library normalize
guard divides `(0,0,1) × 0 = 0` by 1 instead of its zero length — the
angle `ω·dt = (|0|/radius)·dt` is 0, `makeRotationAxis` is the identity
matrix, and composing with it leaves the ball's orientation matrix exactly
unchanged: the rotation update has no effect that frame. -/
theorem c7_zero_velocity_rotation_unchanged (cosF sinF : ℚ → ℚ)
    (hc : cosF 0 = 1) (hs : sinF 0 = 0) (dt : ℚ) (p : Vec3) (m : Mat3) :
    rotationAxisOf Vec3.zero = Vec3.zero ∧
      (integrate cosF sinF dt p Vec3.zero m).2 = m := by
  refine ⟨by decide, ?_⟩
  rw [integrate]
  have h1 : Vec3.length Vec3.zero = 0 := by decide
  have h2 : qdiv 0 ballRadius = 0 := by decide
  have h3 : qmul 0 dt = 0 := by rw [qmul_eq, zero_mul]
  rw [h1, h2, h3, hc, hs]
  have h4 : makeRotationAxis (rotationAxisOf Vec3.zero) 1 0 = Mat3.identity := by
    decide
  rw [h4, Mat3.mul_identity]

/-- C3: for an overlapping pair with (equal masses and) opposite
velocities `v` and `-v` directed along the line of centers, one
application of the pair resolver exchanges the velocities exactly: the
results are `-v` and `v`.  The hypothesis `hlen` states that the square
root taken by `distanceTo`/`normalize` is exact at this configuration
(true of the real-number computation; in the rational model it restricts
to configurations with rational center distance). -/
theorem c3_headon_exchange (posA posB vA vB : Vec3) (a : ℚ)
    (hlen : (posB.sub posA).length * (posB.sub posA).length
      = (posB.sub posA).normSq)
    (hnz : (posB.sub posA).normSq ≠ 0)
    (hover : posA.distanceTo posB < twoRadius)
    (hvA : vA = ((posB.sub posA).normalize).multiplyScalar a)
    (hvB : vA.add vB = Vec3.zero) :
    resolvePairUpd posA posB vA vB = (vB, vA) := by
  set d := posB.sub posA with hd
  set L := d.length with hL
  have hLne : L ≠ 0 := by
    intro h
    rw [h, mul_zero] at hlen
    exact hnz hlen.symm
  have hnorm : d.normalize = ⟨d.x / L, d.y / L, d.z / L⟩ := by
    rw [Vec3.normalize, if_neg hLne]
    ext <;>
      simp [Vec3.divideScalar, Vec3.multiplyScalar_def, qdiv_eq] <;>
      ring
  have hS : d.x * d.x + d.y * d.y + d.z * d.z = L * L := by
    rw [Vec3.normSq_def] at hlen
    exact hlen.symm
  have hBx : vB.x = -vA.x := by
    have h := congrArg Vec3.x hvB
    simp [Vec3.add_def, Vec3.zero] at h
    linarith
  have hBy : vB.y = -vA.y := by
    have h := congrArg Vec3.y hvB
    simp [Vec3.add_def, Vec3.zero] at h
    linarith
  have hBz : vB.z = -vA.z := by
    have h := congrArg Vec3.z hvB
    simp [Vec3.add_def, Vec3.zero] at h
    linarith
  have hAx : vA.x = d.x / L * a := by rw [hvA, hnorm, Vec3.multiplyScalar_def]
  have hAy : vA.y = d.y / L * a := by rw [hvA, hnorm, Vec3.multiplyScalar_def]
  have hAz : vA.z = d.z / L * a := by rw [hvA, hnorm, Vec3.multiplyScalar_def]
  have ha1 : vA.dot ⟨d.x / L, d.y / L, d.z / L⟩ = a := by
    rw [Vec3.dot_def]
    simp only []
    rw [hAx, hAy, hAz]
    field_simp
    linear_combination a * hS
  have ha2 : vB.dot ⟨d.x / L, d.y / L, d.z / L⟩ = -a := by
    have hopp : vB.dot ⟨d.x / L, d.y / L, d.z / L⟩
        = -(vA.dot ⟨d.x / L, d.y / L, d.z / L⟩) := by
      rw [Vec3.dot_def, Vec3.dot_def, hBx, hBy, hBz]
      ring
    rw [hopp, ha1]
  have hP : qmul (qdiv (qmul 2 (qsub a (-a)))
      (qadd massOfSphere massOfSphere)) massOfSphere = 2 * a := by
    simp [qmul_eq, qdiv_eq, qsub_eq, qadd_eq, massOfSphere]
    ring
  simp only [resolvePairUpd]
  rw [← hd, hnorm, ha1, ha2, hP]
  apply Prod.ext <;>
    ext <;>
    simp [Vec3.sub_def, Vec3.add_def, Vec3.multiplyScalar_def, hAx, hAy,
      hAz, hBx, hBy, hBz] <;>
    ring

/-- Witness for C3: a concrete overlapping pair 0.3 apart on the x-axis
with velocities `(1,0,0)` and `(-1,0,0)`: the resolver returns exactly
the exchanged pair. -/
theorem c3_headon_exchange_witness :
    ((⟨mkRat 3 10, 0, restZ⟩ : Vec3).sub ⟨0, 0, restZ⟩).length *
        ((⟨mkRat 3 10, 0, restZ⟩ : Vec3).sub ⟨0, 0, restZ⟩).length
      = ((⟨mkRat 3 10, 0, restZ⟩ : Vec3).sub ⟨0, 0, restZ⟩).normSq ∧
    ((⟨mkRat 3 10, 0, restZ⟩ : Vec3).sub ⟨0, 0, restZ⟩).normSq ≠ 0 ∧
    (⟨0, 0, restZ⟩ : Vec3).distanceTo ⟨mkRat 3 10, 0, restZ⟩ < twoRadius ∧
    resolvePairUpd ⟨0, 0, restZ⟩ ⟨mkRat 3 10, 0, restZ⟩ ⟨1, 0, 0⟩
        ⟨mkRat (-1) 1, 0, 0⟩
      = (⟨mkRat (-1) 1, 0, 0⟩, ⟨1, 0, 0⟩) := by
  have e1 : ((⟨mkRat 3 10, 0, restZ⟩ : Vec3).sub ⟨0, 0, restZ⟩).length
      = mkRat 3 10 := by decide
  have e2 : ((⟨mkRat 3 10, 0, restZ⟩ : Vec3).sub ⟨0, 0, restZ⟩).normSq
      = mkRat 9 100 := by decide
  have hlen0 : ((⟨mkRat 3 10, 0, restZ⟩ : Vec3).sub ⟨0, 0, restZ⟩).length *
        ((⟨mkRat 3 10, 0, restZ⟩ : Vec3).sub ⟨0, 0, restZ⟩).length
      = ((⟨mkRat 3 10, 0, restZ⟩ : Vec3).sub ⟨0, 0, restZ⟩).normSq := by
    rw [e1, e2, Rat.mkRat_eq_div, Rat.mkRat_eq_div]
    norm_num
  refine ⟨hlen0, by decide, by decide, ?_⟩
  exact c3_headon_exchange ⟨0, 0, restZ⟩ ⟨mkRat 3 10, 0, restZ⟩ ⟨1, 0, 0⟩
    ⟨mkRat (-1) 1, 0, 0⟩ 1 hlen0 (by decide) (by decide) (by decide)
    (by decide)

theorem getD_mem_or_default {α : Type} (l : List α) (i : ℕ) (d : α) :
    l.getD i d ∈ l ∨ l.getD i d = d := by
  by_cases h : i < l.length
  · left
    rw [List.getD_eq_getElem?_getD, List.getElem?_eq_getElem h]
    exact List.getElem_mem h
  · right
    rw [List.getD_eq_getElem?_getD, List.getElem?_eq_none (by omega)]
    rfl

theorem getD_prop {α : Type} {P : α → Prop} {l : List α} {d : α}
    (h : ∀ x ∈ l, P x) (hd : P d) (i : ℕ) : P (l.getD i d) := by
  rcases getD_mem_or_default l i d with hm | he
  · exact h _ hm
  · rw [he]
    exact hd

theorem getD_prop_of_lt {α : Type} {P : α → Prop} {l : List α} {d : α}
    (h : ∀ x ∈ l, P x) {i : ℕ} (hi : i < l.length) : P (l.getD i d) := by
  rw [List.getD_eq_getElem?_getD, List.getElem?_eq_getElem hi]
  exact h _ (List.getElem_mem hi)

theorem set_prop {α : Type} {P : α → Prop} {l : List α} {w : α}
    (h : ∀ x ∈ l, P x) (hw : P w) (i : ℕ) : ∀ x ∈ l.set i w, P x := by
  intro x hx
  rcases List.mem_or_eq_of_mem_set hx with hm | he
  · exact h _ hm
  · rw [he]
    exact hw

theorem collisionVel_snd (pos vel : List Vec3) (ID : ℕ) :
    (collisionVel pos vel ID).2 = collideLog pos ID := by
  rw [collisionVel, collideLog]
  have key : ∀ (l : List ℕ) (ac : List Vec3 × List (ℕ × ℕ)),
      (l.foldl (collisionPass pos ID) ac).2
        = ac.2 ++ (l.filter (overlapTest pos ID)).map (fun i => (ID, i)) := by
    intro l
    induction l with
    | nil => intro ac; simp
    | cons i tl ih =>
      intro ac
      simp only [List.foldl_cons]
      rw [ih]
      have hpass : (collisionPass pos ID ac i).2
          = ac.2 ++ (if overlapTest pos ID i = true then [(ID, i)] else []) := by
        by_cases h1 : i = ID
        · simp only [collisionPass, overlapTest, if_pos h1]
          simp
        · by_cases h2 : (pos.getD ID Vec3.zero).distanceTo
              (pos.getD i Vec3.zero) < twoRadius
          · simp only [collisionPass, overlapTest, if_neg h1, if_pos h2,
              decide_eq_true h2]
            simp
          · simp only [collisionPass, overlapTest, if_neg h1, if_neg h2,
              decide_eq_false h2]
            simp
      rw [hpass, List.filter_cons]
      by_cases ho : overlapTest pos ID i = true
      · simp [ho]
      · simp [ho]
  rw [key]
  rfl

theorem collisionVel_fst_len (pos vel : List Vec3) (ID : ℕ) :
    (collisionVel pos vel ID).1.length = vel.length := by
  rw [collisionVel]
  have key : ∀ (l : List ℕ) (ac : List Vec3 × List (ℕ × ℕ)),
      (l.foldl (collisionPass pos ID) ac).1.length = ac.1.length := by
    intro l
    induction l with
    | nil => intro ac; rfl
    | cons i tl ih =>
      intro ac
      simp only [List.foldl_cons]
      rw [ih]
      rw [collisionPass]
      split_ifs <;> simp
  exact key _ _

theorem ballBody_pos_eq (cosF sinF : ℚ → ℚ) (dt : ℚ) (curSec : ℤ)
    (s : SimState) (i : ℕ) :
    (ballBody cosF sinF dt curSec s i).pos = s.pos.set i
      (integrate cosF sinF dt (s.pos.getD i Vec3.zero)
        ((collisionVel s.pos s.vel i).1.getD i Vec3.zero)
        (s.mat.getD i Mat3.identity)).1 := by
  simp only [ballBody]
  split <;> rfl

theorem ballBody_currentTime (cosF sinF : ℚ → ℚ) (dt : ℚ) (curSec : ℤ)
    (s : SimState) (i : ℕ) :
    (ballBody cosF sinF dt curSec s i).currentTime = s.currentTime := by
  simp only [ballBody]
  split <;> rfl

theorem ballBody_previousSec (cosF sinF : ℚ → ℚ) (dt : ℚ) (curSec : ℤ)
    (s : SimState) (i : ℕ) :
    (ballBody cosF sinF dt curSec s i).previousSec = curSec := by
  simp only [ballBody]
  split
  · rfl
  · next h => exact (not_ne_iff.mp h).symm

theorem ballBody_fricCount (cosF sinF : ℚ → ℚ) (dt : ℚ) (curSec : ℤ)
    (s : SimState) (i : ℕ) :
    (ballBody cosF sinF dt curSec s i).fricCount
      = s.fricCount + (if curSec = s.previousSec then 0 else 1) := by
  simp only [ballBody]
  by_cases h : curSec = s.previousSec
  · rw [if_neg (not_ne_iff.mpr h), if_pos h]
    rfl
  · rw [if_pos h, if_neg h]

theorem ballBody_pos_len (cosF sinF : ℚ → ℚ) (dt : ℚ) (curSec : ℤ)
    (s : SimState) (i : ℕ) :
    (ballBody cosF sinF dt curSec s i).pos.length = s.pos.length := by
  rw [ballBody_pos_eq, List.length_set]

theorem ballBody_resolveLog (cosF sinF : ℚ → ℚ) (dt : ℚ) (curSec : ℤ)
    (s : SimState) (i : ℕ) :
    (ballBody cosF sinF dt curSec s i).resolveLog
      = s.resolveLog ++ collideLog s.pos i := by
  simp only [ballBody]
  split <;> simp [collisionVel_snd]

theorem Vec3.sub_z (a b : Vec3) : (a.sub b).z = a.z - b.z := by
  rw [Vec3.sub_def]

theorem Vec3.add_z (a b : Vec3) : (a.add b).z = a.z + b.z := by
  rw [Vec3.add_def]

theorem Vec3.multiplyScalar_z (a : Vec3) (s : ℚ) :
    (a.multiplyScalar s).z = a.z * s := by
  rw [Vec3.multiplyScalar_def]

theorem resolvePairUpd_z (posA posB vA vB : Vec3) (hz : posA.z = posB.z)
    (hA : vA.z = 0) (hB : vB.z = 0) :
    (resolvePairUpd posA posB vA vB).1.z = 0 ∧
      (resolvePairUpd posA posB vA vB).2.z = 0 := by
  have hdz : (posB.sub posA).z = 0 := by
    rw [Vec3.sub_z, hz]
    ring
  have hnz : ((posB.sub posA).normalize).z = 0 := by
    rw [Vec3.normalize, Vec3.divideScalar, Vec3.multiplyScalar_z, hdz]
    ring
  simp only [resolvePairUpd]
  constructor
  · rw [Vec3.sub_z, Vec3.multiplyScalar_z, hnz, hA]
    ring
  · rw [Vec3.add_z, Vec3.multiplyScalar_z, hnz, hB]
    ring

theorem collisionVel_z (pos vel : List Vec3) (ID : ℕ) (zc : ℚ)
    (hp : ∀ p ∈ pos, p.z = zc) (hv : ∀ v ∈ vel, v.z = 0)
    (hID : ID < pos.length) :
    ∀ v ∈ (collisionVel pos vel ID).1, v.z = 0 := by
  rw [collisionVel]
  have key : ∀ (l : List ℕ) (ac : List Vec3 × List (ℕ × ℕ)),
      (∀ i ∈ l, i < pos.length) → (∀ v ∈ ac.1, v.z = 0) →
      ∀ v ∈ (l.foldl (collisionPass pos ID) ac).1, v.z = 0 := by
    intro l
    induction l with
    | nil => exact fun ac _ hac => hac
    | cons i tl ih =>
      intro ac hl hac
      simp only [List.foldl_cons]
      refine ih _ (fun j hj => hl j (List.mem_cons_of_mem _ hj)) ?_
      rw [collisionPass]
      split_ifs with h1 h2
      · exact hac
      · have hzA : (pos.getD ID Vec3.zero).z = zc :=
          getD_prop_of_lt hp hID
        have hzB : (pos.getD i Vec3.zero).z = zc :=
          getD_prop_of_lt hp (hl i (List.mem_cons_self i tl))
        have hvA : (ac.1.getD ID Vec3.zero).z = 0 :=
          getD_prop hac rfl ID
        have hvB : (ac.1.getD i Vec3.zero).z = 0 :=
          getD_prop hac rfl i
        obtain ⟨hz1, hz2⟩ := resolvePairUpd_z (pos.getD ID Vec3.zero)
          (pos.getD i Vec3.zero) (ac.1.getD ID Vec3.zero)
          (ac.1.getD i Vec3.zero) (hzA.trans hzB.symm) hvA hvB
        exact set_prop (set_prop hac hz1 ID) hz2 i
      · exact hac
  refine key _ _ (fun i hi => List.mem_range.mp hi) hv

theorem boundaryReflect_z (p v : Vec3) (h : v.z = 0) :
    (boundaryReflect p v).z = 0 := by
  rw [boundaryReflect]
  split_ifs <;>
    simp [Vec3.multiplyScalar_def, h]

theorem integrate_pos_z (cosF sinF : ℚ → ℚ) (dt : ℚ) (p v : Vec3)
    (m : Mat3) (hp : p.z = restZ) (hv : v.z = 0) :
    (integrate cosF sinF dt p v m).1.z = restZ := by
  simp only [integrate]
  rw [Vec3.add_def, Vec3.multiplyScalar_def]
  simp [hp, hv]

theorem ballBody_z (cosF sinF : ℚ → ℚ) (dt : ℚ) (curSec : ℤ)
    (s : SimState) (i : ℕ) (hi : i < s.pos.length)
    (hp : ∀ p ∈ s.pos, p.z = restZ) (hv : ∀ v ∈ s.vel, v.z = 0) :
    (∀ p ∈ (ballBody cosF sinF dt curSec s i).pos, p.z = restZ) ∧
      ∀ v ∈ (ballBody cosF sinF dt curSec s i).vel, v.z = 0 := by
  have hcv : ∀ v ∈ (collisionVel s.pos s.vel i).1, v.z = 0 :=
    collisionVel_z s.pos s.vel i restZ hp hv hi
  have hgz : ((collisionVel s.pos s.vel i).1.getD i Vec3.zero).z = 0 :=
    getD_prop hcv rfl i
  have hpz : (s.pos.getD i Vec3.zero).z = restZ := getD_prop_of_lt hp hi
  have hiz : (integrate cosF sinF dt (s.pos.getD i Vec3.zero)
      ((collisionVel s.pos s.vel i).1.getD i Vec3.zero)
      (s.mat.getD i Mat3.identity)).1.z = restZ :=
    integrate_pos_z _ _ _ _ _ _ hpz hgz
  simp only [ballBody]
  split
  · constructor
    · exact set_prop hp hiz i
    · intro v hvm
      rcases List.mem_map.mp hvm with ⟨w, hw, hmap⟩
      have hwz : w.z = 0 :=
        set_prop hcv (boundaryReflect_z _ _ hgz) i w hw
      rw [← hmap, Vec3.multiplyScalar_def]
      simp [hwz]
  · exact ⟨set_prop hp hiz i,
      set_prop hcv (boundaryReflect_z _ _ hgz) i⟩

theorem frame_z (cosF sinF : ℚ → ℚ) (s : SimState) (dt : ℚ)
    (hp : ∀ p ∈ s.pos, p.z = restZ) (hv : ∀ v ∈ s.vel, v.z = 0) :
    (∀ p ∈ (frame cosF sinF s dt).pos, p.z = restZ) ∧
      (∀ v ∈ (frame cosF sinF s dt).vel, v.z = 0) ∧
      (frame cosF sinF s dt).pos.length = s.pos.length := by
  rw [frame]
  have key : ∀ (l : List ℕ) (st : SimState),
      st.pos.length = s.pos.length →
      (∀ i ∈ l, i < s.pos.length) →
      (∀ p ∈ st.pos, p.z = restZ) → (∀ v ∈ st.vel, v.z = 0) →
      (∀ p ∈ (l.foldl (fun st i => if mkRat 3 20 < dt then st
          else ballBody cosF sinF dt (secOf (s.currentTime +
            jsRound (qmul dt 1000))) st i) st).pos, p.z = restZ) ∧
        (∀ v ∈ (l.foldl (fun st i => if mkRat 3 20 < dt then st
          else ballBody cosF sinF dt (secOf (s.currentTime +
            jsRound (qmul dt 1000))) st i) st).vel, v.z = 0) ∧
        (l.foldl (fun st i => if mkRat 3 20 < dt then st
          else ballBody cosF sinF dt (secOf (s.currentTime +
            jsRound (qmul dt 1000))) st i) st).pos.length
          = s.pos.length := by
    intro l
    induction l with
    | nil => exact fun st hlen _ hps hvs => ⟨hps, hvs, hlen⟩
    | cons i tl ih =>
      intro st hlen hil hps hvs
      simp only [List.foldl_cons]
      by_cases hdt : mkRat 3 20 < dt
      · rw [if_pos hdt]
        exact ih st hlen (fun j hj => hil j (List.mem_cons_of_mem _ hj))
          hps hvs
      · rw [if_neg hdt]
        have hi : i < st.pos.length := by
          rw [hlen]
          exact hil i (List.mem_cons_self i tl)
        obtain ⟨hp2, hv2⟩ := ballBody_z cosF sinF dt _ st i hi hps hvs
        refine ih _ ?_ (fun j hj => hil j (List.mem_cons_of_mem _ hj))
          hp2 hv2
        rw [ballBody_pos_len, hlen]
  exact key _ _ rfl (fun i hi => List.mem_range.mp hi) hp hv

theorem boostBody_z (cosF sinF : ℚ → ℚ) (dts : ℕ → ℚ) (s : SimState)
    (i : ℕ) (hi : i < s.pos.length)
    (hp : ∀ p ∈ s.pos, p.z = restZ) (hv : ∀ v ∈ s.vel, v.z = 0) :
    (∀ p ∈ (boostBody cosF sinF dts s i).pos, p.z = restZ) ∧
      ∀ v ∈ (boostBody cosF sinF dts s i).vel, v.z = 0 := by
  have hgz : ((s.vel.getD i Vec3.zero).multiplyScalar
      (qadd colliFric colliFric)).z = 0 := by
    rw [Vec3.multiplyScalar_z, getD_prop hv rfl i]
    ring
  have hpz : (s.pos.getD i Vec3.zero).z = restZ := getD_prop_of_lt hp hi
  simp only [boostBody]
  constructor
  · exact set_prop hp (integrate_pos_z _ _ _ _ _ _ hpz hgz) i
  · exact set_prop hv hgz i

theorem speedBoost_z (cosF sinF : ℚ → ℚ) (dts : ℕ → ℚ) (s : SimState)
    (hp : ∀ p ∈ s.pos, p.z = restZ) (hv : ∀ v ∈ s.vel, v.z = 0) :
    (∀ p ∈ (speedBoost cosF sinF dts s).pos, p.z = restZ) ∧
      ∀ v ∈ (speedBoost cosF sinF dts s).vel, v.z = 0 := by
  rw [speedBoost]
  have key : ∀ (l : List ℕ) (st : SimState),
      st.pos.length = s.pos.length →
      (∀ i ∈ l, i < s.pos.length) →
      (∀ p ∈ st.pos, p.z = restZ) → (∀ v ∈ st.vel, v.z = 0) →
      (∀ p ∈ (l.foldl (boostBody cosF sinF dts) st).pos, p.z = restZ) ∧
        ∀ v ∈ (l.foldl (boostBody cosF sinF dts) st).vel, v.z = 0 := by
    intro l
    induction l with
    | nil => exact fun st _ _ hps hvs => ⟨hps, hvs⟩
    | cons i tl ih =>
      intro st hlen hil hps hvs
      simp only [List.foldl_cons]
      have hi : i < st.pos.length := by
        rw [hlen]
        exact hil i (List.mem_cons_self i tl)
      obtain ⟨hp2, hv2⟩ := boostBody_z cosF sinF dts st i hi hps hvs
      refine ih _ ?_ (fun j hj => hil j (List.mem_cons_of_mem _ hj)) hp2 hv2
      simp only [boostBody]
      rw [List.length_set, hlen]
  exact key _ _ rfl (fun i hi => List.mem_range.mp hi) hp hv

/-- C9: every ball stays on the table's resting plane: if every center has
`z = 9/20` (the plane set at creation, `tableWidth - 0.05`) and every
velocity is horizontal, then after any sequence of frames — collision
resolution, integration, boundary reflection and friction decay included —
and after the S-key speed boost, every center still has `z = 9/20` and
every velocity is still horizontal: no operation writes a nonzero z
component (contact normals between coplanar centers have zero z, boundary
reflection touches only x and y signs plus a scalar factor, and friction,
boost and integration scale or add horizontal vectors). -/
theorem c9_z_plane_invariant (cosF sinF : ℚ → ℚ) (boostDts : ℕ → ℚ)
    (s : SimState) (dts : List ℚ) (h : ZInv s restZ) :
    ZInv (run cosF sinF s dts) restZ ∧
      ZInv (speedBoost cosF sinF boostDts s) restZ := by
  obtain ⟨hp, hv⟩ := h
  constructor
  · rw [run]
    have key : ∀ (l : List ℚ) (st : SimState),
        (∀ p ∈ st.pos, p.z = restZ) → (∀ v ∈ st.vel, v.z = 0) →
        ZInv (l.foldl (frame cosF sinF) st) restZ := by
      intro l
      induction l with
      | nil => exact fun st hps hvs => ⟨hps, hvs⟩
      | cons d tl ih =>
        intro st hps hvs
        simp only [List.foldl_cons]
        obtain ⟨hp2, hv2, _⟩ := frame_z cosF sinF st d hps hvs
        exact ih _ hp2 hv2
    exact key _ _ hp hv
  · obtain ⟨hp2, hv2⟩ := speedBoost_z cosF sinF boostDts s hp hv
    exact ⟨hp2, hv2⟩

/-- Witness for C9: a concrete 8-ball state (one ball moving at speed 3
toward the cushion) keeps all centers on `z = 9/20` and all velocities
horizontal after a frame and after the speed boost. -/
theorem c9_z_plane_invariant_witness :
    ZInv stateC2 restZ ∧
      ZInv (run cosOne sinZero stateC2 [mkRat 1 10]) restZ ∧
      ZInv (speedBoost cosOne sinZero (fun _ => mkRat 1 20) stateC2)
        restZ := by
  have h0 : ZInv stateC2 restZ := ⟨by decide, by decide⟩
  refine ⟨h0, ?_, ?_⟩
  · exact (c9_z_plane_invariant cosOne sinZero (fun _ => mkRat 1 20)
      stateC2 [mkRat 1 10] h0).1
  · exact (c9_z_plane_invariant cosOne sinZero (fun _ => mkRat 1 20)
      stateC2 [mkRat 1 10] h0).2

theorem reflect_x_nonpos (p v : Vec3) (h : halfWidth < p.x) :
    (boundaryReflect p v).x ≤ 0 := by
  simp only [boundaryReflect, if_pos h]
  split_ifs <;>
    simp [Vec3.multiplyScalar_def, qneg_eq, qabs_eq, rollFric_val] <;>
    nlinarith [abs_nonneg v.x]

theorem reflect_x_nonneg (p v : Vec3) (h : p.x < qneg halfWidth) :
    0 ≤ (boundaryReflect p v).x := by
  have hW : halfWidth = 24 / 5 := halfWidth_val
  have hx : ¬halfWidth < p.x := by
    rw [qneg_eq] at h
    rw [hW] at h ⊢
    linarith
  simp only [boundaryReflect, if_neg hx, if_pos h]
  split_ifs <;>
    simp [Vec3.multiplyScalar_def, qneg_eq, qabs_eq, rollFric_val] <;>
    nlinarith [abs_nonneg v.x]

theorem reflect_y_nonpos (p v : Vec3) (h : halfHeight < p.y) :
    (boundaryReflect p v).y ≤ 0 := by
  simp only [boundaryReflect]
  split_ifs with h1 h2 <;>
    simp [Vec3.multiplyScalar_def, qneg_eq, qabs_eq, rollFric_val] <;>
    nlinarith [abs_nonneg v.y, abs_nonneg (v.y * (4/5 : ℚ))]

theorem reflect_y_nonneg (p v : Vec3) (h : p.y < qneg halfHeight) :
    0 ≤ (boundaryReflect p v).y := by
  have hH : halfHeight = 23 / 10 := halfHeight_val
  have hy : ¬halfHeight < p.y := by
    rw [qneg_eq] at h
    rw [hH] at h ⊢
    linarith
  simp only [boundaryReflect]
  split_ifs with h1 h2 <;>
    first
      | (exfalso; exact hy (by assumption))
      | (simp [Vec3.multiplyScalar_def, qneg_eq, qabs_eq, rollFric_val] <;>
          nlinarith [abs_nonneg v.y, abs_nonneg (v.y * (4/5 : ℚ))])

/-- C2 (amended): the Boundary Handler corrects violations in the
velocity, not the position: for any ball whose center is beyond a table
bound, the reflected velocity component points back toward the table
(its product with the out-of-bounds coordinate is ≤ 0), on both axes; the
position itself is not clamped (see the counterexample theorem: after a
step with `dt ≤ 0.15` a position can exceed `halfWidth`). -/
theorem c2_boundary_reflects_inward (p v : Vec3) :
    (halfWidth < qabs p.x → qmul (boundaryReflect p v).x p.x ≤ 0) ∧
      (halfHeight < qabs p.y → qmul (boundaryReflect p v).y p.y ≤ 0) := by
  constructor <;> intro h <;> rw [qabs_eq] at h <;> rw [qmul_eq]
  · rcases le_or_lt p.x 0 with hs | hs
    · have hx : p.x < qneg halfWidth := by
        rw [abs_of_nonpos hs] at h
        rw [qneg_eq]
        linarith
      have := reflect_x_nonneg p v hx
      have hxneg : p.x ≤ 0 := hs
      nlinarith
    · have hx : halfWidth < p.x := by
        rw [abs_of_pos hs] at h
        exact h
      have := reflect_x_nonpos p v hx
      nlinarith
  · rcases le_or_lt p.y 0 with hs | hs
    · have hy : p.y < qneg halfHeight := by
        rw [abs_of_nonpos hs] at h
        rw [qneg_eq]
        linarith
      have := reflect_y_nonneg p v hy
      nlinarith
    · have hy : halfHeight < p.y := by
        rw [abs_of_pos hs] at h
        exact h
      have := reflect_y_nonpos p v hy
      nlinarith

/-- Witness for C2's amended statement at a corner point `(5, 3)` outside
both bounds: both reflected components point back toward the table. -/
theorem c2_boundary_reflects_inward_witness :
    halfWidth < qabs (5 : ℚ) ∧ halfHeight < qabs (3 : ℚ) ∧
      qmul (boundaryReflect ⟨5, 3, restZ⟩ ⟨2, 1, 0⟩).x 5 ≤ 0 ∧
      qmul (boundaryReflect ⟨5, 3, restZ⟩ ⟨2, 1, 0⟩).y 3 ≤ 0 := by
  refine ⟨by decide, by decide, ?_, ?_⟩
  · exact (c2_boundary_reflects_inward ⟨5, 3, restZ⟩ ⟨2, 1, 0⟩).1 (by decide)
  · exact (c2_boundary_reflects_inward ⟨5, 3, restZ⟩ ⟨2, 1, 0⟩).2 (by decide)

/-- Counterexample to C2 as stated: from a state with every center inside
the bounds, one frame with `dt = 0.1 ≤ 0.15` moves ball 0 from
`x = 4.75` to `x = 5.05 > halfWidth = 4.8`, and the Boundary Handler does
not correct the position — `|position.x| ≤ halfWidth` fails after the
step. -/
theorem c2_position_not_clamped_counterexample :
    (∀ p ∈ stateC2.pos, qabs p.x ≤ halfWidth ∧ qabs p.y ≤ halfHeight) ∧
      ¬ mkRat 3 20 < mkRat 1 10 ∧
      halfWidth <
        qabs ((run cosOne sinZero stateC2 [mkRat 1 10]).pos.getD 0
          Vec3.zero).x := by
  refine ⟨by decide, by decide, by decide⟩

theorem collideLog_count_ne (pos : List Vec3) (ID a b : ℕ) (h : a ≠ ID) :
    (collideLog pos ID).count (a, b) = 0 := by
  rw [collideLog, List.count_eq_zero]
  intro hmem
  rcases List.mem_map.mp hmem with ⟨i, _, hi⟩
  have := congrArg Prod.fst hi
  exact h (this.symm)

theorem nodup_count_le_one {α : Type} [BEq α] [LawfulBEq α]
    {l : List α} (h : l.Nodup) (x : α) : l.count x ≤ 1 := by
  induction l with
  | nil => simp
  | cons a tl ih =>
    obtain ⟨hna, htl⟩ := List.nodup_cons.mp h
    rw [List.count_cons]
    by_cases hx : x = a
    · subst hx
      rw [List.count_eq_zero.mpr hna]
      simp
    · rw [if_neg (by simpa using Ne.symm hx)]
      have := ih htl
      omega

theorem collideLog_count_le_one (pos : List Vec3) (ID b : ℕ) :
    (collideLog pos ID).count (ID, b) ≤ 1 := by
  have hnd : (collideLog pos ID).Nodup := by
    apply List.Nodup.map
    · intro x y hxy
      exact congrArg Prod.snd hxy
    · exact (List.nodup_range _).filter _
  exact nodup_count_le_one hnd _

theorem foldl_id {α β : Type} (l : List β) (st : α) :
    l.foldl (fun a _ => a) st = st := by
  induction l generalizing st with
  | nil => rfl
  | cons hd tl ih => simp [ih]

theorem foldBB_log_count (cosF sinF : ℚ → ℚ) (dt : ℚ) (curSec : ℤ)
    (a b : ℕ) :
    ∀ (l : List ℕ), l.Nodup → ∀ st : SimState,
      ((l.foldl (ballBody cosF sinF dt curSec) st).resolveLog.count (a, b))
      ≤ st.resolveLog.count (a, b) + (if a ∈ l then 1 else 0) := by
  intro l
  induction l with
  | nil =>
    intro _ st
    simp
  | cons i tl ih =>
    intro hnd st
    obtain ⟨hi, htl⟩ := List.nodup_cons.mp hnd
    simp only [List.foldl_cons]
    have h2 := ih htl (ballBody cosF sinF dt curSec st i)
    rw [ballBody_resolveLog, List.count_append] at h2
    by_cases hai : a = i
    · subst hai
      have h1 := collideLog_count_le_one st.pos a b
      have hnm : a ∉ tl := hi
      rw [if_neg hnm] at h2
      rw [if_pos (List.mem_cons_self a tl)]
      omega
    · rw [collideLog_count_ne st.pos i a b hai] at h2
      by_cases ham : a ∈ tl
      · rw [if_pos ham] at h2
        rw [if_pos (List.mem_cons_of_mem _ ham)]
        omega
      · rw [if_neg ham] at h2
        split_ifs <;> omega

theorem fold_log_count (cosF sinF : ℚ → ℚ) (dt : ℚ) (curSec : ℤ)
    (a b : ℕ) (l : List ℕ) (hnd : l.Nodup) (st : SimState) :
    ((l.foldl (fun st i => if mkRat 3 20 < dt then st
      else ballBody cosF sinF dt curSec st i) st).resolveLog.count (a, b))
      ≤ st.resolveLog.count (a, b) + (if a ∈ l then 1 else 0) := by
  by_cases hdt : mkRat 3 20 < dt
  · rw [foldl_skip _ hdt]
    split_ifs <;> omega
  · simp only [if_neg hdt]
    exact foldBB_log_count cosF sinF dt curSec a b l hnd st

theorem frame_log_count (cosF sinF : ℚ → ℚ) (s : SimState) (dt : ℚ)
    (a b : ℕ) :
    (frame cosF sinF s dt).resolveLog.count (a, b) ≤ 1 := by
  rw [frame]
  refine le_trans (fold_log_count cosF sinF dt _ a b _
    (List.nodup_range _) _) ?_
  simp only [List.count_nil]
  split_ifs <;> omega

theorem getD_set_ne {α : Type} (l : List α) (i j : ℕ) (w d : α)
    (h : i ≠ j) : (l.set i w).getD j d = l.getD j d := by
  rw [List.getD_eq_getElem?_getD, List.getD_eq_getElem?_getD,
    List.getElem?_set_ne h]

theorem fold_pos_stable (cosF sinF : ℚ → ℚ) (dt : ℚ) (curSec : ℤ)
    (j : ℕ) :
    ∀ (l : List ℕ), (∀ i ∈ l, i ≠ j) → ∀ st : SimState,
      ((l.foldl (fun st i => if mkRat 3 20 < dt then st
          else ballBody cosF sinF dt curSec st i) st).pos.getD j Vec3.zero
        = st.pos.getD j Vec3.zero) ∧
      ((l.foldl (fun st i => if mkRat 3 20 < dt then st
          else ballBody cosF sinF dt curSec st i) st).pos.length
        = st.pos.length) := by
  intro l
  induction l with
  | nil => exact fun _ st => ⟨rfl, rfl⟩
  | cons i tl ih =>
    intro hne st
    simp only [List.foldl_cons]
    by_cases hdt : mkRat 3 20 < dt
    · rw [if_pos hdt]
      exact ih (fun k hk => hne k (List.mem_cons_of_mem _ hk)) st
    · rw [if_neg hdt]
      obtain ⟨hg, hl⟩ := ih (fun k hk => hne k (List.mem_cons_of_mem _ hk))
        (ballBody cosF sinF dt curSec st i)
      constructor
      · rw [hg, ballBody_pos_eq,
          getD_set_ne _ _ _ _ _ (hne i (List.mem_cons_self i tl))]
      · rw [hl, ballBody_pos_len]

theorem fold_log_mono (cosF sinF : ℚ → ℚ) (dt : ℚ) (curSec : ℤ)
    (x : ℕ × ℕ) :
    ∀ (l : List ℕ) (st : SimState), x ∈ st.resolveLog →
      x ∈ (l.foldl (fun st i => if mkRat 3 20 < dt then st
        else ballBody cosF sinF dt curSec st i) st).resolveLog := by
  intro l
  induction l with
  | nil => exact fun st h => h
  | cons i tl ih =>
    intro st h
    simp only [List.foldl_cons]
    by_cases hdt : mkRat 3 20 < dt
    · rw [if_pos hdt]
      exact ih st h
    · rw [if_neg hdt]
      refine ih _ ?_
      rw [ballBody_resolveLog]
      exact List.mem_append_left _ h

/-- C1 (amended): within one frame each ordered pair is tested exactly
once, so an unordered overlapping pair receives the elastic-collision
update once or twice — exactly once in the direction of the lower-indexed
ball (whose processing sees both positions still at their frame-start
values), and at most once more in the opposite direction when the
higher-indexed ball is processed (which happens exactly when the pair
still overlaps after the first ball's integration — see the
counterexample theorem for a double resolution). -/
theorem c1_pair_resolved_once_or_twice (cosF sinF : ℚ → ℚ) (s : SimState)
    (dt : ℚ) (a b : ℕ) (hab : a < b) (hb : b < s.pos.length)
    (hdt : ¬ mkRat 3 20 < dt)
    (hover : (s.pos.getD a Vec3.zero).distanceTo (s.pos.getD b Vec3.zero)
      < twoRadius) :
    (frame cosF sinF s dt).resolveLog.count (a, b) = 1 ∧
      (frame cosF sinF s dt).resolveLog.count (b, a) ≤ 1 := by
  refine ⟨?_, frame_log_count cosF sinF s dt b a⟩
  have hmem_gen : ∀ st : SimState, st.pos = s.pos →
      (a, b) ∈ ((List.range st.pos.length).foldl
        (fun st i => if mkRat 3 20 < dt then st
          else ballBody cosF sinF dt
            (secOf (s.currentTime + jsRound (qmul dt 1000))) st i)
        st).resolveLog := by
    intro st hpos
    have hn : st.pos.length = (a + 1) + (st.pos.length - (a + 1)) := by
      rw [hpos]
      omega
    rw [hn, List.range_add, List.range_succ, List.foldl_append,
      List.foldl_append]
    set curS := secOf (s.currentTime + jsRound (qmul dt 1000)) with hcs
    have hstaba := fold_pos_stable cosF sinF dt curS a (List.range a)
      (fun i hi => Nat.ne_of_lt (List.mem_range.mp hi)) st
    have hstabb := fold_pos_stable cosF sinF dt curS b (List.range a)
      (fun i hi => Nat.ne_of_lt (Nat.lt_trans (List.mem_range.mp hi) hab))
      st
    set st1 := (List.range a).foldl
      (fun st i => if mkRat 3 20 < dt then st
        else ballBody cosF sinF dt curS st i) st with hst1
    simp only [List.foldl_cons, List.foldl_nil]
    rw [if_neg hdt]
    apply fold_log_mono
    rw [ballBody_resolveLog]
    apply List.mem_append_right
    rw [collideLog]
    apply List.mem_map.mpr
    refine ⟨b, List.mem_filter.mpr ⟨List.mem_range.mpr ?_, ?_⟩, rfl⟩
    · rw [hstaba.2, hpos]
      exact hb
    · rw [overlapTest, if_neg (Nat.ne_of_gt hab)]
      rw [hstaba.1, hstabb.1, hpos]
      exact decide_eq_true hover
  have hmem := hmem_gen { s with
    currentTime := s.currentTime + jsRound (qmul dt 1000),
    resolveLog := [] } rfl
  simp only [frame]
  have hcpos := List.count_pos_iff.mpr hmem
  have hle2 := fold_log_count cosF sinF dt
    (secOf (s.currentTime + jsRound (qmul dt 1000))) a b
    (List.range (({ s with
      currentTime := s.currentTime + jsRound (qmul dt 1000),
      resolveLog := [] } : SimState).pos.length))
    (List.nodup_range _)
    { s with currentTime := s.currentTime + jsRound (qmul dt 1000),
             resolveLog := [] }
  simp only [List.count_nil] at hle2
  have hite : (if a ∈ List.range s.pos.length then 1 else 0) ≤ 1 := by
    split_ifs <;> omega
  dsimp only at hcpos hle2 ⊢
  omega

/-- Witness for C1's amended statement on a concrete overlapping pair:
in that frame the pair (0,1) is resolved exactly once in the 0→1
direction and at most once in the 1→0 direction. -/
theorem c1_pair_resolved_once_or_twice_witness :
    (0 : ℕ) < 1 ∧ 1 < stateC1.pos.length ∧ ¬ mkRat 3 20 < (0 : ℚ) ∧
      (stateC1.pos.getD 0 Vec3.zero).distanceTo
        (stateC1.pos.getD 1 Vec3.zero) < twoRadius ∧
      ((frame cosOne sinZero stateC1 0).resolveLog.count (0, 1) = 1 ∧
        (frame cosOne sinZero stateC1 0).resolveLog.count (1, 0) ≤ 1) :=
  ⟨by decide, by decide, by decide, by decide,
    c1_pair_resolved_once_or_twice cosOne sinZero stateC1 0 0 1 (by decide)
      (by decide) (by decide) (by decide)⟩

/-- Counterexample to C1 as stated: balls 0 and 1 overlap at the start of
the frame (centers 0.3 < 0.4 apart), yet the frame's resolve log is
`[(0,1), (1,0)]` — the elastic-collision update fired twice for the one
unordered pair, once while processing each ball (at `dt = 0` the pair
still overlaps when ball 1 is processed).  The second application undoes
the first: both end-of-frame velocities equal their frame-start values,
so the collision is cancelled instead of resolved. -/
theorem c1_double_resolution_counterexample :
    (stateC1.pos.getD 0 Vec3.zero).distanceTo
      (stateC1.pos.getD 1 Vec3.zero) < twoRadius ∧
    (frame cosOne sinZero stateC1 0).resolveLog = [(0, 1), (1, 0)] ∧
    (frame cosOne sinZero stateC1 0).vel.getD 0 Vec3.zero = ⟨1, 0, 0⟩ ∧
    (frame cosOne sinZero stateC1 0).vel.getD 1 Vec3.zero
      = ⟨mkRat (-1) 1, 0, 0⟩ := by
  exact ⟨by decide, by decide, by decide, by decide⟩

theorem jsRound_eq (q : ℚ) : jsRound q = ⌊q + 1 / 2⌋ := by
  rw [jsRound, qfloor_eq, qadd_eq,
    show (mkRat 1 2 : ℚ) = 1 / 2 by norm_num [Rat.mkRat_eq_div]]

theorem jsRound_nonneg (d : ℚ) (h : 0 ≤ d) :
    0 ≤ jsRound (qmul d 1000) := by
  rw [jsRound_eq, qmul_eq]
  apply Int.le_floor.mpr
  push_cast
  nlinarith

theorem jsRound_le_150 (d : ℚ) (h : d ≤ mkRat 3 20) :
    jsRound (qmul d 1000) ≤ 150 := by
  rw [jsRound_eq, qmul_eq]
  have h2 : d ≤ 3 / 20 := by
    rw [show (mkRat 3 20 : ℚ) = 3 / 20 by norm_num [Rat.mkRat_eq_div]] at h
    exact h
  have h3 : d * 1000 + 1 / 2 < 151 := by nlinarith
  have h4 : ⌊d * 1000 + 1 / 2⌋ < 151 := Int.floor_lt.mpr (by exact_mod_cast h3)
  omega

theorem fold_tick_stable (cosF sinF : ℚ → ℚ) (dt : ℚ) (curSec : ℤ) :
    ∀ (l : List ℕ) (st : SimState), st.previousSec = curSec →
      ((l.foldl (fun st i => if mkRat 3 20 < dt then st
          else ballBody cosF sinF dt curSec st i) st).previousSec = curSec ∧
       (l.foldl (fun st i => if mkRat 3 20 < dt then st
          else ballBody cosF sinF dt curSec st i) st).fricCount
          = st.fricCount ∧
       (l.foldl (fun st i => if mkRat 3 20 < dt then st
          else ballBody cosF sinF dt curSec st i) st).currentTime
          = st.currentTime ∧
       (l.foldl (fun st i => if mkRat 3 20 < dt then st
          else ballBody cosF sinF dt curSec st i) st).pos.length
          = st.pos.length) := by
  intro l
  induction l with
  | nil => exact fun st h => ⟨h, rfl, rfl, rfl⟩
  | cons i tl ih =>
    intro st h
    simp only [List.foldl_cons]
    by_cases hdt : mkRat 3 20 < dt
    · rw [if_pos hdt]
      exact ih st h
    · rw [if_neg hdt]
      obtain ⟨ih1, ih2, ih3, ih4⟩ := ih (ballBody cosF sinF dt curSec st i)
        (ballBody_previousSec cosF sinF dt curSec st i)
      refine ⟨ih1, ?_, ?_, ?_⟩
      · rw [ih2, ballBody_fricCount, if_pos h.symm]
        omega
      · rw [ih3, ballBody_currentTime]
      · rw [ih4, ballBody_pos_len]

theorem frame_tick (cosF sinF : ℚ → ℚ) (s : SimState) (dt : ℚ)
    (hne : s.pos ≠ []) (hdt : ¬ mkRat 3 20 < dt)
    (hprev : s.previousSec = secOf s.currentTime) :
    (frame cosF sinF s dt).currentTime
        = s.currentTime + jsRound (qmul dt 1000) ∧
    (frame cosF sinF s dt).previousSec
        = secOf (s.currentTime + jsRound (qmul dt 1000)) ∧
    ((frame cosF sinF s dt).fricCount : ℤ)
        = s.fricCount + (if secOf (s.currentTime + jsRound (qmul dt 1000))
            = secOf s.currentTime then (0 : ℤ) else 1) ∧
    (frame cosF sinF s dt).pos.length = s.pos.length := by
  obtain ⟨k, hk⟩ : ∃ k, s.pos.length = k + 1 := by
    have hlp : 0 < s.pos.length := List.length_pos.mpr hne
    exact ⟨s.pos.length - 1, by omega⟩
  simp only [frame]
  rw [hk, List.range_succ_eq_map, List.foldl_cons, if_neg hdt]
  set t0 := s.currentTime + jsRound (qmul dt 1000) with ht0
  set c := secOf t0 with hc
  set s0 : SimState := { s with currentTime := t0, resolveLog := [] }
    with hs0
  set st1 := ballBody cosF sinF dt c s0 0 with hst1
  obtain ⟨f1, f2, f3, f4⟩ := fold_tick_stable cosF sinF dt c
    ((List.range k).map Nat.succ) st1
    (ballBody_previousSec cosF sinF dt c s0 0)
  refine ⟨?_, ?_, ?_, ?_⟩
  · rw [f3, hst1, ballBody_currentTime]
  · rw [f1]
  · rw [f2, hst1, ballBody_fricCount]
    have hs0prev : s0.previousSec = secOf s.currentTime := hprev
    rw [hs0prev]
    by_cases he : c = secOf s.currentTime
    · rw [if_pos he, if_pos he]
      push_cast
      ring
    · rw [if_neg he, if_neg he]
      push_cast
      ring
  · rw [f4, hst1, ballBody_pos_len, hs0]
    exact hk

theorem secOf_def (t : ℤ) : secOf t = t / 1000 % 60 := rfl

theorem secOf_step (t m : ℤ) (ht : 0 ≤ t) (hm0 : 0 ≤ m) (hm1 : m ≤ 150)
    (hub : t + m < 60000) :
    (if secOf (t + m) = secOf t then (0 : ℤ) else 1)
      = (t + m) / 1000 - t / 1000 := by
  rw [secOf_def, secOf_def]
  split_ifs with h
  · omega
  · omega

theorem run_cons (cosF sinF : ℚ → ℚ) (s : SimState) (d : ℚ)
    (tl : List ℚ) :
    run cosF sinF s (d :: tl) = run cosF sinF (frame cosF sinF s d) tl := by
  rw [run, run, List.foldl_cons]

theorem frame_pos_ne_nil (cosF sinF : ℚ → ℚ) (s : SimState) (dt : ℚ)
    (hne : s.pos ≠ []) (hdt : ¬ mkRat 3 20 < dt)
    (hprev : s.previousSec = secOf s.currentTime) :
    (frame cosF sinF s dt).pos ≠ [] := by
  intro h
  have hlen := (frame_tick cosF sinF s dt hne hdt hprev).2.2.2
  rw [h, List.length_nil] at hlen
  exact hne (List.length_eq_zero.mp hlen.symm)

theorem run_fric_aux (cosF sinF : ℚ → ℚ) :
    ∀ (dts : List ℚ) (s : SimState),
      s.pos ≠ [] → 0 ≤ s.currentTime →
      s.previousSec = secOf s.currentTime →
      (∀ d ∈ dts, 0 ≤ d ∧ d ≤ mkRat 3 20) →
      s.currentTime + (dts.map (fun d => jsRound (qmul d 1000))).sum
        < 60000 →
      (run cosF sinF s dts).currentTime
          = s.currentTime + (dts.map (fun d => jsRound (qmul d 1000))).sum ∧
      ((run cosF sinF s dts).fricCount : ℤ)
          = s.fricCount + ((s.currentTime +
              (dts.map (fun d => jsRound (qmul d 1000))).sum) / 1000
            - s.currentTime / 1000) := by
  intro dts
  induction dts with
  | nil =>
    intro s h1 h2 h3 h4 h5
    refine ⟨by simp [run], ?_⟩
    simp [run]
  | cons d tl ih =>
    intro s h1 h2 h3 h4 h5
    have hd := h4 d (List.mem_cons_self _ _)
    have hm0 := jsRound_nonneg d hd.1
    have hm1 := jsRound_le_150 d hd.2
    have hsum_nonneg : 0 ≤ (tl.map (fun d => jsRound (qmul d 1000))).sum := by
      apply List.sum_nonneg
      intro x hx
      rcases List.mem_map.mp hx with ⟨e, he, rfl⟩
      exact jsRound_nonneg e (h4 e (List.mem_cons_of_mem _ he)).1
    rw [List.map_cons, List.sum_cons] at h5
    have hdt : ¬ mkRat 3 20 < d := not_lt.mpr hd.2
    obtain ⟨ht, hp, hf, _⟩ := frame_tick cosF sinF s d h1 hdt h3
    have h1' := frame_pos_ne_nil cosF sinF s d h1 hdt h3
    have h2' : 0 ≤ (frame cosF sinF s d).currentTime := by
      rw [ht]
      omega
    have h3' : (frame cosF sinF s d).previousSec
        = secOf (frame cosF sinF s d).currentTime := by
      rw [hp, ht]
    have h5' : (frame cosF sinF s d).currentTime
        + (tl.map (fun d => jsRound (qmul d 1000))).sum < 60000 := by
      rw [ht]
      omega
    obtain ⟨ihT, ihF⟩ := ih (frame cosF sinF s d) h1' h2' h3'
      (fun e he => h4 e (List.mem_cons_of_mem _ he)) h5'
    have harith := secOf_step s.currentTime (jsRound (qmul d 1000)) h2 hm0
      hm1 (by omega)
    rw [harith] at hf
    constructor
    · rw [run_cons, ihT, ht, List.map_cons, List.sum_cons]
      ring
    · rw [run_cons, ihF, hf, ht, List.map_cons, List.sum_cons]
      have hgoal : (s.currentTime + jsRound (qmul d 1000)
            + (tl.map (fun d => jsRound (qmul d 1000))).sum)
          = (s.currentTime + (jsRound (qmul d 1000)
            + (tl.map (fun d => jsRound (qmul d 1000))).sum)) := by ring
      rw [hgoal]
      ring

/-- C4 (amended): the once-per-second friction pass — which multiplies
every ball's velocity by `f_roll` exactly once per firing — fires exactly
twice over a frame sequence starting on an integer second whose
*rounded-millisecond* clock increments `Math.round(dt·1000)` sum to
2000 ms (within the first minute, so the `% 60` wrap does not interfere).
The spec's "simulated time sums to exactly 2.0 seconds" is not the right
side condition, because the clock accumulates `Math.round(dt·1000)`
milliseconds: frames shorter than half a millisecond are dropped entirely
and fractional parts are rounded per frame, so a sequence summing to
2.0 s of simulated time can produce fewer (or more) firings — see the
counterexample theorem. -/
theorem c4_friction_pass_twice (cosF sinF : ℚ → ℚ) (s : SimState)
    (dts : List ℚ)
    (hne : s.pos ≠ []) (ht0 : 0 ≤ s.currentTime)
    (hstart : s.currentTime % 1000 = 0)
    (hprev : s.previousSec = secOf s.currentTime)
    (hfc : s.fricCount = 0)
    (hdts : ∀ d ∈ dts, 0 ≤ d ∧ d ≤ mkRat 3 20)
    (hsum : (dts.map (fun d => jsRound (qmul d 1000))).sum = 2000)
    (hbound : s.currentTime + 2000 < 60000) :
    (run cosF sinF s dts).fricCount = 2 := by
  obtain ⟨hT, hF⟩ := run_fric_aux cosF sinF dts s hne ht0 hprev hdts
    (by rw [hsum]; exact hbound)
  rw [hsum, hfc] at hF
  omega

/-- Witness for C4's amended statement: 20 frames of `dt = 0.1 s` from a
state at clock 0 advance the rounded-millisecond clock by exactly
2000 ms, and the friction pass fires exactly twice. -/
theorem c4_friction_pass_twice_witness :
    stillState8.pos ≠ [] ∧ stillState8.currentTime % 1000 = 0 ∧
      stillState8.previousSec = secOf stillState8.currentTime ∧
      (∀ d ∈ dtsC4W, 0 ≤ d ∧ d ≤ mkRat 3 20) ∧
      (dtsC4W.map (fun d => jsRound (qmul d 1000))).sum = 2000 ∧
      (run cosOne sinZero stillState8 dtsC4W).fricCount = 2 := by
  refine ⟨by decide, by decide, by decide, by decide, by decide, ?_⟩
  exact c4_friction_pass_twice cosOne sinZero stillState8 dtsC4W
    (by decide) (by decide) (by decide) (by decide) (by decide) (by decide)
    (by decide) (by decide)

/-- Counterexample to C4 as stated: 21 frames of `dt = 2/21 s` sum to
exactly 2.0 simulated seconds starting at an integer second (clock 0),
with every `dt` positive and below the 0.15 s ceiling — yet the friction
pass fires exactly once, not twice: each frame advances the clock by
`Math.round(2000/21) = 95 ms`, so after all 21 frames the clock reads
1995 ms and the second boundary at 2000 ms is never crossed. -/
theorem c4_subsecond_rounding_counterexample :
    dtsC4.sum = 2 ∧
      (∀ d ∈ dtsC4, 0 < d ∧ d ≤ mkRat 3 20) ∧
      stillState8.currentTime = 0 ∧
      stillState8.previousSec = secOf stillState8.currentTime ∧
      stillState8.fricCount = 0 ∧
      (dtsC4.map (fun d => jsRound (qmul d 1000))).sum = 1995 ∧
      (run cosOne sinZero stillState8 dtsC4).fricCount = 1 := by
  refine ⟨?_, by decide, by decide, by decide, by decide, by decide,
    by decide⟩
  rw [dtsC4, List.sum_replicate, nsmul_eq_mul]
  norm_num [Rat.mkRat_eq_div]

/-- Witness for C7 at a concrete orientation matrix: with zero velocity
the axis is the zero vector and the matrix is returned unchanged. -/
theorem c7_zero_velocity_rotation_unchanged_witness :
    cosOne 0 = 1 ∧ sinZero 0 = 0 ∧
      rotationAxisOf Vec3.zero = Vec3.zero ∧
      (integrate cosOne sinZero (mkRat 1 10) ⟨1, 2, 3⟩ Vec3.zero
        ⟨1, 2, 3, 4, 5, 6, 7, 8, 9⟩).2 = ⟨1, 2, 3, 4, 5, 6, 7, 8, 9⟩ := by
  refine ⟨by decide, by decide, ?_, ?_⟩
  · exact (c7_zero_velocity_rotation_unchanged cosOne sinZero (by decide)
      (by decide) (mkRat 1 10) ⟨1, 2, 3⟩ ⟨1, 2, 3, 4, 5, 6, 7, 8, 9⟩).1
  · exact (c7_zero_velocity_rotation_unchanged cosOne sinZero (by decide)
      (by decide) (mkRat 1 10) ⟨1, 2, 3⟩ ⟨1, 2, 3, 4, 5, 6, 7, 8, 9⟩).2
